import Mathlib

/-!
Verification of the tree-query helper module `lib/utils/utils.js`.

The module operates on dynamically typed AST node objects.  We shallowly
embed the relevant fragment of the JavaScript value universe as `JSVal`:
objects are association lists of fields, arrays are lists, and the scalar
values the helpers inspect are represented directly.  A property read
`v.k` is `getField v k : Option JSVal`; the `none` result models the
TypeError thrown when the receiver is `undefined` or `null`, and a missing
field on an object reads as `undefined` (as in JavaScript).  Functions whose
property reads may throw are embedded in the `Option` monad; functions all
of whose reads are guarded by type predicates are embedded as total
functions.

Parent back-references (`getAncestor`, `isInLeftSideOfAssignmentExpression`)
are embedded separately with a zipper: a node-in-a-tree is a focused
subtree together with its stack of context frames, so `node.parent` is
"pop one frame" and JavaScript reference identity (`===`) between nodes of
one freshly parsed tree is positional equality of zippers.
-/

namespace EmberUtils

/-- The fragment of the JavaScript value universe the helpers touch.
`undefined` is `undefined`; `obj` is an object as an association list of
fields (JavaScript object literals have unique keys, first lookup wins). -/
inductive JSVal where
  | undefined : JSVal
  | null : JSVal
  | bool : Bool → JSVal
  | num : Int → JSVal
  | str : String → JSVal
  | arr : List JSVal → JSVal
  | obj : List (String × JSVal) → JSVal

/-- Property read `v[k]`.  `none` models a thrown TypeError (nullish
receiver); a missing field on an object, and any field of a non-`length`
read on the remaining primitives, reads as `undefined`.  (Only the fields
the source module actually reads matter; none of them are `length` on a
primitive.) -/
def getField (v : JSVal) (k : String) : Option JSVal :=
  match v with
  | .undefined => none
  | .null => none
  | .obj fields => some ((fields.lookup k).getD .undefined)
  | .arr xs => some (if k = "length" then .num xs.length else .undefined)
  | _ => some .undefined

/-- Total property read: like `getField` but a nullish receiver reads as
`undefined`.  Used only where the source guards the receiver with a type
predicate (so the JavaScript read cannot throw there). -/
def getF (v : JSVal) (k : String) : JSVal :=
  (getField v k).getD .undefined

/-- JavaScript truthiness for the embedded values.  (`NaN` does not arise:
numbers are embedded as integers.) -/
def truthy : JSVal → Bool
  | .undefined => false
  | .null => false
  | .bool b => b
  | .num n => n != 0
  | .str s => s != ""
  | .arr _ => true
  | .obj _ => true

/-- The `type` tag of a node value, when it carries one. -/
def typeTag (v : JSVal) : Option String :=
  match getF v "type" with
  | .str s => some s
  | _ => none

/-- Modelled from the spec: the type predicates imported from
`../utils/types` (whose source is not part of the given files) dispatch on
the node's tagged-union discriminator `type` (spec sections 3 and 9).
They are modelled as total: a value without a `type` string tag satisfies
no predicate. -/
def isNodeType (t : String) (v : JSVal) : Bool :=
  typeTag v == some t

def isAssignmentExpression (v : JSVal) : Bool := isNodeType "AssignmentExpression" v

def isCallExpression (v : JSVal) : Bool := isNodeType "CallExpression" v

def isIdentifier (v : JSVal) : Bool := isNodeType "Identifier" v

def isLiteral (v : JSVal) : Bool := isNodeType "Literal" v

def isMemberExpression (v : JSVal) : Bool := isNodeType "MemberExpression" v

def isNewExpression (v : JSVal) : Bool := isNodeType "NewExpression" v

def isObjectPattern (v : JSVal) : Bool := isNodeType "ObjectPattern" v

def isOptionalCallExpression (v : JSVal) : Bool := isNodeType "OptionalCallExpression" v

def isOptionalMemberExpression (v : JSVal) : Bool := isNodeType "OptionalMemberExpression" v

/-- Coercion of a value interpolated into a template literal
(`${'${'}v}`).  Scalars follow JavaScript's `String(v)`.  An array-valued
interpolation (never produced by a parser for the fields read here) would
coerce via `Array.prototype.join`; it is abbreviated. -/
def jsTemplateStr : JSVal → String
  | .undefined => "undefined"
  | .null => "null"
  | .bool b => if b then "true" else "false"
  | .num n => toString n
  | .str s => s
  | .arr _ => ""
  | .obj _ => "[object Object]"

/-- `findNodes(body, nodeName)`: filter `body` to nodes whose `type` tag
equals `nodeName`.  The callback `node.type === nodeName` reads `type` on
each element (a nullish element would throw, hence `Option`); calling
`.filter` on a truthy non-array `body` also throws. -/
def findNodesFilter (nodeName : String) : List JSVal → Option (List JSVal)
  | [] => some []
  | x :: t => do
      let ty ← getField x "type"
      let rest ← findNodesFilter nodeName t
      pure (if (match ty with | .str s => s == nodeName | _ => false) then
              x :: rest
            else rest)

/-- `findNodes` from the source: `nodesArray = []`; when `body` is truthy,
`nodesArray = body.filter((node) => node.type === nodeName)`. -/
def findNodes (body : JSVal) (nodeName : String) : Option JSVal :=
  if truthy body then
    match body with
    | .arr xs => (findNodesFilter nodeName xs).map .arr
    | _ => none
  else
    some (.arr [])

/-- `getSize`: `node.loc.end.line - node.loc.start.line + 1`.  A non-number
line (never produced by a parser) would give `NaN`, abbreviated as
`undefined`. -/
def getSize (node : JSVal) : Option JSVal := do
  let loc ← getField node "loc"
  let e ← getField loc "end"
  let el ← getField e "line"
  let s ← getField loc "start"
  let sl ← getField s "line"
  match el, sl with
  | .num a, .num b => pure (.num (a - b + 1))
  | _, _ => pure .undefined

/-- The `while (isMemberExpression(callee))` loop of `parseCallee`,
accumulating pushes in `acc` (collection order, leaf first), followed by
the final `if (isIdentifier(callee))` push.  Every property read in the
source here is guarded by a type predicate that forces the receiver to be
an object, so the reads cannot throw and `getF` is exact. -/
def parseCalleeAux (callee : JSVal) (acc : List JSVal) : List JSVal :=
  if h : isMemberExpression callee = true then
    let acc2 :=
      if isIdentifier (getF callee "property") then
        acc ++ [getF (getF callee "property") "name"]
      else
        acc
    parseCalleeAux (getF callee "object") acc2
  else if isIdentifier callee then
    acc ++ [getF callee "name"]
  else
    acc
termination_by sizeOf callee
decreasing_by
  have hlk : ∀ (l : List (String × JSVal)) (k : String) (w : JSVal),
      l.lookup k = some w → sizeOf w < sizeOf l := by
    intro l k
    induction l with
    | nil => intro w hw; simp [List.lookup] at hw
    | cons a t ih =>
      intro w hw
      obtain ⟨k2, v2⟩ := a
      rw [List.lookup] at hw
      cases hb : (k == k2) with
      | true => rw [hb] at hw; simp at hw; subst hw; simp_arith
      | false =>
        rw [hb] at hw
        simp at hw
        have := ih w hw
        simp_arith
        omega
  cases callee with
  | obj fs =>
    simp only [getF, getField, Option.getD_some]
    cases hl : fs.lookup "object" with
    | none =>
      have h1 : 1 ≤ sizeOf fs := by cases fs <;> simp_arith
      simp_arith
      omega
    | some w =>
      have := hlk fs "object" w hl
      simp [Option.getD]
      simp_arith
      omega
  | undefined => simp [isMemberExpression, isNodeType, typeTag, getF, getField] at h
  | null => simp [isMemberExpression, isNodeType, typeTag, getF, getField] at h
  | bool b => simp [isMemberExpression, isNodeType, typeTag, getF, getField] at h
  | num n => simp [isMemberExpression, isNodeType, typeTag, getF, getField] at h
  | str s => simp [isMemberExpression, isNodeType, typeTag, getF, getField] at h
  | arr xs => simp [isMemberExpression, isNodeType, typeTag, getF, getField] at h

/-- `parseCallee` from the source: empty unless the node is a
CallExpression or NewExpression; otherwise walk the callee chain and
reverse the collected names. -/
def parseCallee (node : JSVal) : List JSVal :=
  (if isCallExpression node || isNewExpression node then
    parseCalleeAux (getF node "callee") []
  else
    []).reverse

/-- `parseArgs` from the source: for a CallExpression,
`node.arguments.filter((a) => isLiteral(a) && a.value).map((a) => a.value)`;
`.filter` on a non-array `arguments` throws.  The `a.value` reads are
short-circuit-guarded by `isLiteral(a)` (an object), so they cannot
throw. -/
def parseArgs (node : JSVal) : Option JSVal :=
  if isCallExpression node then
    match getF node "arguments" with
    | .arr xs =>
        some (.arr ((xs.filter fun a => isLiteral a && truthy (getF a "value")).map
          fun a => getF a "value"))
    | _ => none
  else
    some (.arr [])

/-- A record with a numeric `order` field, as scanned by
`findUnorderedProperty`.  `payload` stands for the record's remaining
fields (it lets distinct records carry equal `order` values). -/
structure OrderedProp where
  order : Int
  payload : Nat
deriving DecidableEq, Repr

/-- `findUnorderedProperty` from the source: the loop
`for (i = 0; i < arr.length - 1; i++) if (arr[i].order > arr[i+1].order)
return arr[i]; return null`, written as recursion over adjacent pairs. -/
def findUnorderedProperty : List OrderedProp → Option OrderedProp
  | a :: b :: rest =>
      if a.order > b.order then some a else findUnorderedProperty (b :: rest)
  | _ => none

/-- The recursive core of `getPropertyValue`, with the state of the
(mutated) `parts` array made explicit: the second component of the result
is the contents of the array object after the call (each recursive step
performs `parts.shift()` on the caller's array).  The `parts.length === 1`
branch returns `node[path]`, which coincides with `node[parts[0]]` both
for a one-segment string and for a one-element array (which coerces to its
element); an empty array reads `node[parts[0]]` with `parts[0]` being
`undefined`, i.e. the field named "undefined". -/
def getPropertyValueAux (node : JSVal) (parts : List String) :
    Option (JSVal × List String) :=
  match parts with
  | [p] => (getField node p).map (fun v => (v, parts))
  | [] => (getField node "undefined").map (fun v => (v, parts))
  | p :: rest =>
      match getField node p with
      | none => none
      | some property =>
          if truthy property then getPropertyValueAux property rest
          else some (property, parts)

/-- Split a character list at every occurrence of `c`
(`['a','.','b']` at `'.'` is `[['a'],['b']]`; the empty list yields
`[[]]`, and separators at the ends or adjacent yield empty pieces, exactly
as JavaScript's `String.prototype.split`). -/
def splitChar (c : Char) : List Char → List (List Char)
  | [] => [[]]
  | x :: t =>
      match splitChar c t with
      | [] => [[]]
      | h :: r => if x = c then [] :: h :: r else (x :: h) :: r

/-- The call `path.split('.')` of the source, embedded character by
character (the separator at this call site is the one-character string
`'.'`). -/
def jsSplitDot (s : String) : List String :=
  (splitChar '.' s.data).map String.mk

/-- The `path` argument of `getPropertyValue`: a dotted string, or a
pre-split array of segment names (the same array object that the function
then mutates in place). -/
inductive JSPath where
  | strPath (s : String)
  | arrPath (parts : List String)

/-- `getPropertyValue` from the source.  For a string path the split
produces a fresh internal array, so the caller observes no mutation; for
an array path the returned list is the final contents of the caller's
array object. -/
def getPropertyValue (node : JSVal) (path : JSPath) : Option (JSVal × List String) :=
  match path with
  | .strPath s => getPropertyValueAux node (jsSplitDot s)
  | .arrPath parts => getPropertyValueAux node parts

/-- The value returned to the caller by `getPropertyValue` (discarding the
final array state). -/
def getPropertyValueResult (node : JSVal) (path : JSPath) : Option JSVal :=
  (getPropertyValue node path).map Prod.fst

/-- The `.filter((props) => initialObjToBinding[binding].includes(props.key.name))`
pass of `collectObjectPatternBindings`; reading `key.name` on a property
whose `key` is nullish throws. -/
def copbFilter (bindings : List String) : List JSVal → Option (List JSVal)
  | [] => some []
  | p :: t => do
      let k ← getField p "key"
      let kn ← getField k "name"
      let rest ← copbFilter bindings t
      pure (if (match kn with | .str s => bindings.contains s | _ => false) then
              p :: rest
            else rest)

/-- The `.map((props) => props.value.name)` pass of
`collectObjectPatternBindings`. -/
def copbMap : List JSVal → Option (List JSVal)
  | [] => some []
  | p :: t => do
      let v ← getField p "value"
      let vn ← getField v "name"
      let rest ← copbMap t
      pure (vn :: rest)

/-- `collectObjectPatternBindings` from the source.  The binding map is a
JavaScript object with variable names as keys and arrays of property names
as values (keys of an object literal are unique; lookup is first-match).
Note the source reads `node.init.name` unconditionally once the id is an
ObjectPattern: a nullish `init` throws.  `identifiers.indexOf(objBindingName)`
finds a match only when the name is a string occurring among the keys, and
then `identifiers[bindingIndex]` is that same name. -/
def collectObjectPatternBindings (node : JSVal)
    (initialObjToBinding : List (String × List String)) : Option JSVal := do
  let id ← getField node "id"
  if !isObjectPattern id then
    pure (.arr [])
  else do
    let identifiers := initialObjToBinding.map Prod.fst
    let init ← getField node "init"
    let objBindingName ← getField init "name"
    let some bname :=
        (match objBindingName with
         | .str s => if identifiers.contains s then some s else none
         | _ => none)
      | pure (.arr [])
    let bindings := (initialObjToBinding.lookup bname).getD []
    let propsV ← getField id "properties"
    match propsV with
    | .arr ps => do
        let kept ← copbFilter bindings ps
        let names ← copbMap kept
        pure (.arr names)
    | _ => none

/-- The `.length <= 0` test at the end of `isEmptyMethod`, applied to a
truthy (hence non-nullish) value: an array compares its length; a string
its length; any other receiver yields `undefined <= 0` or a degenerate
coercion, which is `false` for every value a parser produces there. -/
def jsLengthLeZero : JSVal → Bool
  | .arr xs => xs.length ≤ 0
  | .str s => s.length ≤ 0
  | _ => false

/-- `isEmptyMethod` from the source:
`node.value.body && node.value.body.body && node.value.body.body.length <= 0`.
`&&` returns its first falsy operand (as a value), otherwise the final
comparison; reading `.body` on a nullish `node.value` throws. -/
def isEmptyMethod (node : JSVal) : Option JSVal := do
  let v ← getField node "value"
  let b ← getField v "body"
  if !truthy b then
    pure b
  else do
    let bb ← getField b "body"
    if !truthy bb then
      pure bb
    else
      pure (.bool (jsLengthLeZero bb))

/-- `getName` from the source.  The member case interpolates the recursive
results into a template literal, so a nameless subexpression (e.g. a
ThisExpression) contributes the string "undefined". -/
def getName (v : JSVal) : JSVal :=
  if isIdentifier v then
    getF v "name"
  else if hc : isCallExpression v = true then
    getName (getF v "callee")
  else if hoc : isOptionalCallExpression v = true then
    getName (getF v "callee")
  else if hm : isMemberExpression v = true then
    .str (jsTemplateStr (getName (getF v "object")) ++ "." ++
      jsTemplateStr (getName (getF v "property")))
  else if hom : isOptionalMemberExpression v = true then
    .str (jsTemplateStr (getName (getF v "object")) ++ "." ++
      jsTemplateStr (getName (getF v "property")))
  else
    .undefined
termination_by sizeOf v
decreasing_by
  all_goals
    have hlk : ∀ (l : List (String × JSVal)) (k : String) (w : JSVal),
        l.lookup k = some w → sizeOf w < sizeOf l := by
      intro l k
      induction l with
      | nil => intro w hw; simp [List.lookup] at hw
      | cons a t ih =>
        intro w hw
        obtain ⟨k2, v2⟩ := a
        rw [List.lookup] at hw
        cases hb : (k == k2) with
        | true => rw [hb] at hw; simp at hw; subst hw; simp_arith
        | false =>
          rw [hb] at hw
          simp at hw
          have := ih w hw
          simp_arith
          omega
  all_goals
    cases v with
    | obj fs =>
      simp only [getF, getField, Option.getD_some]
      first
      | (cases hl : fs.lookup "callee" with
         | none =>
           have h1 : 1 ≤ sizeOf fs := by cases fs <;> simp_arith
           simp_arith
           omega
         | some w =>
           have := hlk fs "callee" w hl
           simp [Option.getD]
           simp_arith
           omega)
      | (cases hl : fs.lookup "object" with
         | none =>
           have h1 : 1 ≤ sizeOf fs := by cases fs <;> simp_arith
           simp_arith
           omega
         | some w =>
           have := hlk fs "object" w hl
           simp [Option.getD]
           simp_arith
           omega)
      | (cases hl : fs.lookup "property" with
         | none =>
           have h1 : 1 ≤ sizeOf fs := by cases fs <;> simp_arith
           simp_arith
           omega
         | some w =>
           have := hlk fs "property" w hl
           simp [Option.getD]
           simp_arith
           omega)
    | undefined =>
      simp [isCallExpression, isOptionalCallExpression, isMemberExpression,
        isOptionalMemberExpression, isNodeType, typeTag, getF, getField] at *
    | null =>
      simp [isCallExpression, isOptionalCallExpression, isMemberExpression,
        isOptionalMemberExpression, isNodeType, typeTag, getF, getField] at *
    | bool b =>
      simp [isCallExpression, isOptionalCallExpression, isMemberExpression,
        isOptionalMemberExpression, isNodeType, typeTag, getF, getField] at *
    | num n =>
      simp [isCallExpression, isOptionalCallExpression, isMemberExpression,
        isOptionalMemberExpression, isNodeType, typeTag, getF, getField] at *
    | str s =>
      simp [isCallExpression, isOptionalCallExpression, isMemberExpression,
        isOptionalMemberExpression, isNodeType, typeTag, getF, getField] at *
    | arr xs =>
      simp [isCallExpression, isOptionalCallExpression, isMemberExpression,
        isOptionalMemberExpression, isNodeType, typeTag, getF, getField] at *

/-!
Zipper model for the parent-walking helpers.

`getAncestor` and `isInLeftSideOfAssignmentExpression` read the `parent`
back-reference, which the spec's invariants say forms a tree walkable to a
root.  A node of such a tree is embedded as a zipper position: the focused
subtree plus the stack of context frames up to the root.  `node.parent`
pops a frame; JavaScript reference identity (`===`) between nodes of one
freshly parsed tree coincides with equality of positions.  The expression
forms are the ones these queries distinguish: member accesses, assignments,
and the leaves appearing in the spec's examples.
-/

/-- Expression forms for the parent-walk model. -/
inductive Exp where
  | identE (name : String)
  | thisE : Exp
  | litE (n : Int)
  | member (obj prop : Exp)
  | assign (left right : Exp)
deriving DecidableEq, Repr

/-- One context frame: the hole says which child the focus is, the other
fields carry the siblings. -/
inductive Frame where
  | memberObjF (prop : Exp)
  | memberPropF (obj : Exp)
  | assignLeftF (right : Exp)
  | assignRightF (left : Exp)
deriving DecidableEq, Repr

/-- Rebuild the parent expression from a frame and the focused child. -/
def Frame.plug : Frame → Exp → Exp
  | .memberObjF p, e => .member e p
  | .memberPropF o, e => .member o e
  | .assignLeftF r, e => .assign e r
  | .assignRightF l, e => .assign l e

/-- A node in a tree: focused subtree plus context up to the root. -/
structure Pos where
  focus : Exp
  ctx : List Frame
deriving DecidableEq, Repr

/-- `node.parent`: `none` at the root (where `parent` is null). -/
def parentPos (p : Pos) : Option Pos :=
  match p.ctx with
  | [] => none
  | f :: fs => some ⟨f.plug p.focus, fs⟩

/-- The position of `q.focus.left` when the focus is an assignment:
used to express the `ancestor === ancestor.parent.left` identity test
positionally. -/
def leftChildPos (q : Pos) : Option Pos :=
  match q.focus with
  | .assign l r => some ⟨l, .assignLeftF r :: q.ctx⟩
  | _ => none

/-- `isAssignmentExpression` on the zipper side. -/
def isAssignExp : Exp → Bool
  | .assign _ _ => true
  | _ => false

/-- The predicate the source passes to `getAncestor`:
`ancestor.parent && isAssignmentExpression(ancestor.parent) &&
ancestor === ancestor.parent.left`. -/
def leftOfAssignPred (p : Pos) : Bool :=
  match parentPos p with
  | none => false
  | some q => isAssignExp q.focus && decide (leftChildPos q = some p)

/-- The `while (currentNode)` loop of `getAncestor`, walking `parent`
links: test the predicate at the current position, else pop a frame; at
the root the parent is null and the loop returns null. -/
def getAncestorAux (focus : Exp) (ctx : List Frame) (pred : Pos → Bool) : Option Pos :=
  if pred ⟨focus, ctx⟩ then some ⟨focus, ctx⟩
  else
    match ctx with
    | [] => none
    | f :: fs => getAncestorAux (f.plug focus) fs pred

/-- `getAncestor` from the source. -/
def getAncestor (p : Pos) (pred : Pos → Bool) : Option Pos :=
  getAncestorAux p.focus p.ctx pred

/-- `isInLeftSideOfAssignmentExpression` from the source:
`Boolean(getAncestor(node, ...))`. -/
def isInLeftSideOfAssignmentExpression (p : Pos) : Bool :=
  (getAncestor p leftOfAssignPred).isSome

/-- All positions on the upward parent walk from a position (the position
itself included), in walk order. -/
def ancestorsAux (focus : Exp) (ctx : List Frame) : List Pos :=
  ⟨focus, ctx⟩ ::
    match ctx with
    | [] => []
    | f :: fs => ancestorsAux (f.plug focus) fs

/-- The ancestor chain of a position. -/
def ancestors (p : Pos) : List Pos :=
  ancestorsAux p.focus p.ctx

/-!
Node encodings.  These build the `JSVal` objects an ESLint-style parser
produces for the node shapes the claims quantify over.
-/

/-- An Identifier node. -/
def mkIdent (s : String) : JSVal :=
  .obj [("type", .str "Identifier"), ("name", .str s)]

/-- A ThisExpression node (it carries no `name`). -/
def mkThis : JSVal :=
  .obj [("type", .str "ThisExpression")]

/-- A Literal node with the given value. -/
def mkLit (v : JSVal) : JSVal :=
  .obj [("type", .str "Literal"), ("value", v)]

/-- A MemberExpression node, with its `computed` flag. -/
def mkMember (computedFlag : Bool) (o p : JSVal) : JSVal :=
  .obj [("type", .str "MemberExpression"), ("object", o), ("property", p),
        ("computed", .bool computedFlag)]

/-- An OptionalMemberExpression node. -/
def mkOptMember (computedFlag : Bool) (o p : JSVal) : JSVal :=
  .obj [("type", .str "OptionalMemberExpression"), ("object", o), ("property", p),
        ("computed", .bool computedFlag)]

/-- A CallExpression node. -/
def mkCall (callee : JSVal) (args : List JSVal) : JSVal :=
  .obj [("type", .str "CallExpression"), ("callee", callee), ("arguments", .arr args)]

/-- A NewExpression node. -/
def mkNew (callee : JSVal) (args : List JSVal) : JSVal :=
  .obj [("type", .str "NewExpression"), ("callee", callee), ("arguments", .arr args)]

/-- An OptionalCallExpression node. -/
def mkOptCall (callee : JSVal) (args : List JSVal) : JSVal :=
  .obj [("type", .str "OptionalCallExpression"), ("callee", callee),
        ("arguments", .arr args)]

/-- A member chain bottoming out at an Identifier root, with all
properties simple identifiers, given leaf-first: `mkChainRev "a" ["c","b"]`
is the callee of `a.b.c(...)`. -/
def mkChainRev (root : String) : List String → JSVal
  | [] => mkIdent root
  | p :: rest => mkMember false (mkChainRev root rest) (mkIdent p)

/-- A member chain bottoming out at an Identifier root with arbitrary
property nodes and `computed` flags, leaf-first: each step carries
(computed flag, property node). -/
def mkChainRevG (root : String) : List (Bool × JSVal) → JSVal
  | [] => mkIdent root
  | s :: rest => mkMember s.1 (mkChainRevG root rest) s.2

/-- An ObjectPattern property `key: value` with identifier key and
(possibly aliased) identifier local value. -/
def mkPatternProp (kv : String × String) : JSVal :=
  .obj [("type", .str "Property"), ("key", mkIdent kv.1), ("value", mkIdent kv.2)]

/-- A VariableDeclarator whose id is an ObjectPattern destructuring the
given (source key, local value) identifier pairs, with the given init
node. -/
def mkObjectPatternDecl (props : List (String × String)) (initNode : JSVal) : JSVal :=
  .obj [("type", .str "VariableDeclarator"),
        ("id", .obj [("type", .str "ObjectPattern"),
                     ("properties", .arr (props.map mkPatternProp))]),
        ("init", initNode)]

/-!
Spec-side resolution functions, for comparison with the embedded code.
-/

/-- Written from the words of claim C8: resolve the path "by repeated
property lookup", so that the result is the undefined sentinel whenever a
segment along the path is absent, and the final value otherwise. -/
def resolvePathClaim (v : JSVal) : List String → JSVal
  | [] => v
  | p :: rest => resolvePathClaim (getF v p) rest

/-- Written from the amended claim C8: resolve segment by segment, but
stop as soon as the value reached is falsy and return it; only a lookup
performed on a truthy value can produce the undefined sentinel.  A
one-segment path is a direct property read. -/
def resolvePathAmended (v : JSVal) : List String → JSVal
  | [] => .undefined
  | [p] => getF v p
  | p :: rest =>
      let w := getF v p
      if truthy w then resolvePathAmended w rest else w

/-!
Helper lemmas shared by the claim theorems.
-/

/-- A property read on a non-nullish receiver does not throw, and yields
the total read. -/
theorem getField_of_ne_nullish {v : JSVal} (h1 : v ≠ .undefined) (h2 : v ≠ .null)
    (k : String) : getField v k = some (getF v k) := by
  cases v <;> simp_all [getField, getF]

/-- A truthy value is not `undefined`. -/
theorem truthy_ne_undefined {v : JSVal} (h : truthy v = true) : v ≠ .undefined := by
  cases v <;> simp_all [truthy]

/-- A truthy value is not `null`. -/
theorem truthy_ne_null {v : JSVal} (h : truthy v = true) : v ≠ .null := by
  cases v <;> simp_all [truthy]

/-- `splitChar` always yields at least one piece. -/
theorem splitChar_ne_nil (c : Char) (l : List Char) : splitChar c l ≠ [] := by
  induction l with
  | nil => simp [splitChar]
  | cons x t ih =>
    rw [splitChar]
    cases h : splitChar c t with
    | nil => simp
    | cons h' r => by_cases hx : x = c <;> simp [hx]

/-- `path.split('.')` always yields at least one segment. -/
theorem jsSplitDot_ne_nil (s : String) : jsSplitDot s ≠ [] := by
  have := splitChar_ne_nil '.' s.data
  simp [jsSplitDot]
  intro h
  exact this h

theorem isCallExpression_mkCall (c : JSVal) (args : List JSVal) :
    isCallExpression (mkCall c args) = true := rfl

theorem isNewExpression_mkNew (c : JSVal) (args : List JSVal) :
    isNewExpression (mkNew c args) = true := rfl

theorem isCallExpression_mkNew (c : JSVal) (args : List JSVal) :
    isCallExpression (mkNew c args) = false := rfl

theorem isNewExpression_mkCall (c : JSVal) (args : List JSVal) :
    isNewExpression (mkCall c args) = false := rfl

theorem getF_mkCall_callee (c : JSVal) (args : List JSVal) :
    getF (mkCall c args) "callee" = c := rfl

theorem getF_mkNew_callee (c : JSVal) (args : List JSVal) :
    getF (mkNew c args) "callee" = c := rfl

theorem getF_mkCall_arguments (c : JSVal) (args : List JSVal) :
    getF (mkCall c args) "arguments" = .arr args := rfl

theorem isIdentifier_mkIdent (s : String) : isIdentifier (mkIdent s) = true := rfl

theorem getF_mkIdent_name (s : String) : getF (mkIdent s) "name" = .str s := rfl

/-- Unfolding the callee-chain loop over an encoded member chain with
arbitrary property nodes: the loop records, leaf first, the `name` field
of exactly those chain properties that are Identifier nodes — the
`computed` flags play no role — and finally the root identifier's name. -/
theorem parseCalleeAux_mkChainRevG (steps : List (Bool × JSVal)) (root : String)
    (acc : List JSVal) :
    parseCalleeAux (mkChainRevG root steps) acc =
      acc ++ (steps.filterMap fun s =>
        if isIdentifier s.2 then some (getF s.2 "name") else none) ++ [.str root] := by
  induction steps generalizing acc with
  | nil =>
    simp [mkChainRevG, parseCalleeAux, mkIdent, isMemberExpression, isIdentifier,
      isNodeType, typeTag, getF, getField, List.lookup]
  | cons s rest ih =>
    rw [mkChainRevG, parseCalleeAux]
    by_cases hid : isIdentifier s.2 = true
    · simp only [mkMember, isMemberExpression, isNodeType, typeTag, getF, getField,
        List.lookup, if_true, if_false]
      simp [hid, ih, List.filterMap_cons, mkMember, isMemberExpression, isNodeType,
        typeTag, getF, getField, List.lookup]
    · simp [hid, ih, List.filterMap_cons, mkMember, isMemberExpression, isNodeType,
        typeTag, getF, getField, List.lookup]

/-- The all-simple-identifiers chain is the general chain with identifier
properties and non-computed accesses. -/
theorem mkChainRev_eq (root : String) (l : List String) :
    mkChainRev root l = mkChainRevG root (l.map fun p => (false, mkIdent p)) := by
  induction l <;> simp [mkChainRev, mkChainRevG, *]

/-- Unfolding the callee-chain loop over a chain of simple identifiers. -/
theorem parseCalleeAux_mkChainRev (root : String) (l : List String)
    (acc : List JSVal) :
    parseCalleeAux (mkChainRev root l) acc = acc ++ l.map .str ++ [.str root] := by
  rw [mkChainRev_eq, parseCalleeAux_mkChainRevG]
  congr 2
  rw [List.filterMap_map]
  simp only [Function.comp_def, isIdentifier_mkIdent, getF_mkIdent_name, if_true]
  exact List.filterMap_eq_map JSVal.str ▸ rfl

/-- C1: for a Call or New node whose callee is a chain of member accesses
over simple identifiers bottoming out at an identifier root, `parseCallee`
returns the names in root-to-leaf order; on a node that is neither a
CallExpression nor a NewExpression it returns the empty sequence. -/
theorem claim_C1 :
    (∀ (root : String) (props : List String) (args : List JSVal),
      parseCallee (mkCall (mkChainRev root props.reverse) args) =
        .str root :: props.map .str) ∧
    (∀ (root : String) (props : List String) (args : List JSVal),
      parseCallee (mkNew (mkChainRev root props.reverse) args) =
        .str root :: props.map .str) ∧
    (∀ v : JSVal, isCallExpression v = false → isNewExpression v = false →
      parseCallee v = []) := by
  refine ⟨?_, ?_, ?_⟩
  · intro root props args
    simp [parseCallee, isCallExpression_mkCall, getF_mkCall_callee,
      parseCalleeAux_mkChainRev, List.reverse_append, List.map_reverse]
  · intro root props args
    simp [parseCallee, isCallExpression_mkNew, isNewExpression_mkNew,
      getF_mkNew_callee, parseCalleeAux_mkChainRev, List.reverse_append,
      List.map_reverse]
  · intro v h1 h2
    simp [parseCallee, h1, h2]

/-- C1 witness: a number is neither a CallExpression nor a NewExpression,
and `parseCallee` yields the empty sequence on it. -/
theorem claim_C1_witness : parseCallee (JSVal.num 5) = [] :=
  claim_C1.2.2 (JSVal.num 5) rfl rfl

/-- C2 counterexample: on `a[b]()` — a computed member access whose
property is the Identifier `b` — `parseCallee` does record the property
name `b`, so it does not stop recording at the computed property (the
claim expects `['a']` there). -/
theorem claim_C2_counterexample :
    parseCallee (mkCall (mkMember true (mkIdent "a") (mkIdent "b")) []) =
      [.str "a", .str "b"] ∧
    [JSVal.str "a", JSVal.str "b"] ≠ [JSVal.str "a"] := by
  constructor
  · simp [parseCallee, parseCalleeAux, mkCall, mkMember, mkIdent,
      isCallExpression, isNewExpression, isMemberExpression, isIdentifier,
      isNodeType, typeTag, getF, getField, List.lookup]
  · simp

/-- C2 amended: while walking the callee chain, `parseCallee` records a
member-access property name exactly when the property node is an
Identifier — the `computed` flag is never consulted, so computed accesses
with identifier properties are recorded too — silently skipping
non-Identifier properties while continuing the walk, and always recovering
the identifier root. -/
theorem claim_C2 :
    ∀ (root : String) (steps : List (Bool × JSVal)) (args : List JSVal),
      parseCallee (mkCall (mkChainRevG root steps) args) =
        .str root :: (steps.reverse.filterMap fun s =>
          if isIdentifier s.2 then some (getF s.2 "name") else none) := by
  intro root steps args
  simp [parseCallee, isCallExpression_mkCall, getF_mkCall_callee,
    parseCalleeAux_mkChainRevG, List.reverse_append, List.filterMap_reverse]

/-- `filter` followed by `map` is a `filterMap`. -/
theorem filter_map_eq_filterMap {α β : Type} (p : α → Bool) (f : α → β)
    (l : List α) :
    (l.filter p).map f = l.filterMap fun a => if p a then some (f a) else none := by
  induction l with
  | nil => rfl
  | cons x t ih => by_cases h : p x <;> simp [h, ih]

/-- C3: for a CallExpression, `parseArgs` returns exactly the values of
those arguments that are Literal nodes with a truthy value, in the
original argument order (falsy literal values such as `0`, `''`, `false`,
`null` are excluded), and for a non-CallExpression node it returns the
empty sequence. -/
theorem claim_C3 :
    (∀ (callee : JSVal) (args : List JSVal),
      parseArgs (mkCall callee args) =
        some (.arr (args.filterMap fun a =>
          if isLiteral a && truthy (getF a "value") then some (getF a "value")
          else none))) ∧
    parseArgs (mkCall (mkIdent "f")
        [mkLit (.str "x"), mkLit (.num 0), mkLit (.str "y"), mkLit .null]) =
      some (.arr [.str "x", .str "y"]) ∧
    (∀ v : JSVal, isCallExpression v = false → parseArgs v = some (.arr [])) := by
  refine ⟨?_, rfl, ?_⟩
  · intro callee args
    simp only [parseArgs, isCallExpression_mkCall, getF_mkCall_arguments, if_true]
    rw [filter_map_eq_filterMap]
  · intro v h
    simp [parseArgs, h]

/-- C3 witness: a string node is not a CallExpression and yields the empty
sequence. -/
theorem claim_C3_witness : parseArgs (JSVal.str "nope") = some (.arr []) :=
  claim_C3.2.2 (JSVal.str "nope") rfl

theorem isIdentifier_mkCall (c : JSVal) (a : List JSVal) :
    isIdentifier (mkCall c a) = false := rfl

theorem isIdentifier_mkOptCall (c : JSVal) (a : List JSVal) :
    isIdentifier (mkOptCall c a) = false := rfl

theorem isIdentifier_mkMember (cf : Bool) (o p : JSVal) :
    isIdentifier (mkMember cf o p) = false := rfl

theorem isIdentifier_mkOptMember (cf : Bool) (o p : JSVal) :
    isIdentifier (mkOptMember cf o p) = false := rfl

theorem isCallExpression_mkOptCall (c : JSVal) (a : List JSVal) :
    isCallExpression (mkOptCall c a) = false := rfl

theorem isOptionalCallExpression_mkOptCall (c : JSVal) (a : List JSVal) :
    isOptionalCallExpression (mkOptCall c a) = true := rfl

theorem getF_mkOptCall_callee (c : JSVal) (a : List JSVal) :
    getF (mkOptCall c a) "callee" = c := rfl

theorem isCallExpression_mkMember (cf : Bool) (o p : JSVal) :
    isCallExpression (mkMember cf o p) = false := rfl

theorem isOptionalCallExpression_mkMember (cf : Bool) (o p : JSVal) :
    isOptionalCallExpression (mkMember cf o p) = false := rfl

theorem isMemberExpression_mkMember (cf : Bool) (o p : JSVal) :
    isMemberExpression (mkMember cf o p) = true := rfl

theorem getF_mkMember_object (cf : Bool) (o p : JSVal) :
    getF (mkMember cf o p) "object" = o := rfl

theorem getF_mkMember_property (cf : Bool) (o p : JSVal) :
    getF (mkMember cf o p) "property" = p := rfl

theorem isCallExpression_mkOptMember (cf : Bool) (o p : JSVal) :
    isCallExpression (mkOptMember cf o p) = false := rfl

theorem isOptionalCallExpression_mkOptMember (cf : Bool) (o p : JSVal) :
    isOptionalCallExpression (mkOptMember cf o p) = false := rfl

theorem isMemberExpression_mkOptMember (cf : Bool) (o p : JSVal) :
    isMemberExpression (mkOptMember cf o p) = false := rfl

theorem isOptionalMemberExpression_mkOptMember (cf : Bool) (o p : JSVal) :
    isOptionalMemberExpression (mkOptMember cf o p) = true := rfl

theorem getF_mkOptMember_object (cf : Bool) (o p : JSVal) :
    getF (mkOptMember cf o p) "object" = o := rfl

theorem getF_mkOptMember_property (cf : Bool) (o p : JSVal) :
    getF (mkOptMember cf o p) "property" = p := rfl

/-- `getName` of an Identifier node is its name. -/
theorem getName_mkIdent (s : String) : getName (mkIdent s) = .str s := by
  rw [getName.eq_def]
  simp [isIdentifier_mkIdent, getF_mkIdent_name]

/-- `getName` of a CallExpression resolves its callee. -/
theorem getName_mkCall (c : JSVal) (args : List JSVal) :
    getName (mkCall c args) = getName c := by
  rw [getName.eq_def]
  simp [isIdentifier_mkCall, isCallExpression_mkCall, getF_mkCall_callee]

/-- `getName` of an OptionalCallExpression resolves its callee. -/
theorem getName_mkOptCall (c : JSVal) (args : List JSVal) :
    getName (mkOptCall c args) = getName c := by
  rw [getName.eq_def]
  simp [isIdentifier_mkOptCall, isCallExpression_mkOptCall,
    isOptionalCallExpression_mkOptCall, getF_mkOptCall_callee]

/-- `getName` of a MemberExpression is the template-joined resolution of
its object and property. -/
theorem getName_mkMember (cf : Bool) (o p : JSVal) :
    getName (mkMember cf o p) =
      .str (jsTemplateStr (getName o) ++ "." ++ jsTemplateStr (getName p)) := by
  rw [getName.eq_def]
  simp [isIdentifier_mkMember, isCallExpression_mkMember,
    isOptionalCallExpression_mkMember, isMemberExpression_mkMember,
    getF_mkMember_object, getF_mkMember_property]

/-- `getName` of an OptionalMemberExpression joins its object and
property. -/
theorem getName_mkOptMember (cf : Bool) (o p : JSVal) :
    getName (mkOptMember cf o p) =
      .str (jsTemplateStr (getName o) ++ "." ++ jsTemplateStr (getName p)) := by
  rw [getName.eq_def]
  simp [isIdentifier_mkOptMember, isCallExpression_mkOptMember,
    isOptionalCallExpression_mkOptMember, isMemberExpression_mkOptMember,
    isOptionalMemberExpression_mkOptMember, getF_mkOptMember_object,
    getF_mkOptMember_property]

/-- `getName` of any node whose tag is none of the five handled variants
is `undefined`. -/
theorem getName_other {v : JSVal}
    (h1 : typeTag v ≠ some "Identifier")
    (h2 : typeTag v ≠ some "CallExpression")
    (h3 : typeTag v ≠ some "OptionalCallExpression")
    (h4 : typeTag v ≠ some "MemberExpression")
    (h5 : typeTag v ≠ some "OptionalMemberExpression") :
    getName v = .undefined := by
  rw [getName.eq_def]
  simp [isIdentifier, isCallExpression, isOptionalCallExpression,
    isMemberExpression, isOptionalMemberExpression, isNodeType, h1, h2, h3, h4, h5]

/-- C4 counterexample: on the call `this.x.y()` — whose innermost object
is a ThisExpression, a variant `getName` does not handle — the result is
the string "undefined.x.y" (the unhandled `this` resolves to `undefined`,
which the template literal coerces to the string "undefined"), not
"this.x.y" as the claim states. -/
theorem claim_C4_counterexample :
    getName (mkCall
      (mkMember false (mkMember false mkThis (mkIdent "x")) (mkIdent "y")) []) =
        .str "undefined.x.y" ∧
    JSVal.str "undefined.x.y" ≠ JSVal.str "this.x.y" := by
  constructor
  · rw [getName_mkCall, getName_mkMember, getName_mkMember, getName_mkIdent,
      getName_mkIdent, getName_other (v := mkThis)] <;> simp [mkThis, typeTag,
      getF, getField, jsTemplateStr]
  · simp

/-- C4 amended: `getName` resolves an Identifier to its name, a
Call/OptionalCall to the name of its callee, a Member/OptionalMember to
the dot-joined resolutions of object and property, and any other variant
to `undefined`; a nameless subexpression inside a member chain contributes
the string "undefined" via template-literal coercion, so on `this.x.y()`
the result is the string "undefined.x.y". -/
theorem claim_C4 :
    (∀ s : String, getName (mkIdent s) = .str s) ∧
    (∀ (c : JSVal) (args : List JSVal), getName (mkCall c args) = getName c) ∧
    (∀ (c : JSVal) (args : List JSVal), getName (mkOptCall c args) = getName c) ∧
    (∀ (cf : Bool) (o p : JSVal), getName (mkMember cf o p) =
      .str (jsTemplateStr (getName o) ++ "." ++ jsTemplateStr (getName p))) ∧
    (∀ (cf : Bool) (o p : JSVal), getName (mkOptMember cf o p) =
      .str (jsTemplateStr (getName o) ++ "." ++ jsTemplateStr (getName p))) ∧
    (∀ v : JSVal,
      typeTag v ≠ some "Identifier" →
      typeTag v ≠ some "CallExpression" →
      typeTag v ≠ some "OptionalCallExpression" →
      typeTag v ≠ some "MemberExpression" →
      typeTag v ≠ some "OptionalMemberExpression" →
      getName v = .undefined) ∧
    getName (mkCall
      (mkMember false (mkMember false mkThis (mkIdent "x")) (mkIdent "y")) []) =
        .str "undefined.x.y" := by
  refine ⟨getName_mkIdent, getName_mkCall, getName_mkOptCall, getName_mkMember,
    getName_mkOptMember, fun v h1 h2 h3 h4 h5 => getName_other h1 h2 h3 h4 h5, ?_⟩
  rw [getName_mkCall, getName_mkMember, getName_mkMember, getName_mkIdent,
    getName_mkIdent, getName_other (v := mkThis)] <;> simp [mkThis, typeTag,
    getF, getField, jsTemplateStr]

/-- C4 witness: a Literal node is none of the handled variants and
resolves to `undefined`. -/
theorem claim_C4_witness : getName (mkLit (JSVal.num 1)) = .undefined :=
  claim_C4.2.2.2.2.2.1 (mkLit (JSVal.num 1))
    (by simp [mkLit, typeTag, getF, getField])
    (by simp [mkLit, typeTag, getF, getField])
    (by simp [mkLit, typeTag, getF, getField])
    (by simp [mkLit, typeTag, getF, getField])
    (by simp [mkLit, typeTag, getF, getField])

/-- The ancestor loop finds a match exactly when some position on the
upward walk satisfies the predicate. -/
theorem getAncestorAux_isSome_iff (pred : Pos → Bool) :
    ∀ (ctx : List Frame) (focus : Exp),
      (getAncestorAux focus ctx pred).isSome = true ↔
        ∃ a ∈ ancestorsAux focus ctx, pred a = true := by
  intro ctx
  induction ctx with
  | nil =>
    intro focus
    rw [getAncestorAux, ancestorsAux]
    by_cases h : pred ⟨focus, []⟩ = true <;> simp [h]
  | cons f fs ih =>
    intro focus
    rw [getAncestorAux, ancestorsAux]
    by_cases h : pred ⟨focus, f :: fs⟩ = true <;> simp [h, ih]

/-- The predicate passed to `getAncestor` holds at a position exactly when
its parent exists, is an assignment, and the position is the parent's left
child. -/
theorem leftOfAssignPred_iff (p : Pos) :
    leftOfAssignPred p = true ↔
      ∃ q, parentPos p = some q ∧ (∃ l r, q.focus = .assign l r) ∧
        leftChildPos q = some p := by
  cases hp : parentPos p with
  | none => simp [leftOfAssignPred, hp]
  | some q =>
    rw [leftOfAssignPred, hp]
    cases hf : q.focus <;>
      simp [isAssignExp, hf, leftChildPos, hp]

/-- C5: `isInLeftSideOfAssignmentExpression` holds at a node exactly when
the upward parent walk (the node included) reaches some ancestor `a` whose
parent exists, is an AssignmentExpression, and has `a` as its left child
(the positional reading of `a === a.parent.left`); in the tree
`this.x.y = 1` the nodes for `this`, `x` and `y` all answer true and the
node for `1` answers false. -/
theorem claim_C5 :
    (∀ p : Pos, isInLeftSideOfAssignmentExpression p = true ↔
      ∃ a ∈ ancestors p, ∃ q, parentPos a = some q ∧
        (∃ l r, q.focus = .assign l r) ∧ leftChildPos q = some a) ∧
    isInLeftSideOfAssignmentExpression
      ⟨.thisE, [.memberObjF (.identE "x"), .memberObjF (.identE "y"),
        .assignLeftF (.litE 1)]⟩ = true ∧
    isInLeftSideOfAssignmentExpression
      ⟨.identE "x", [.memberPropF .thisE, .memberObjF (.identE "y"),
        .assignLeftF (.litE 1)]⟩ = true ∧
    isInLeftSideOfAssignmentExpression
      ⟨.identE "y", [.memberPropF (.member .thisE (.identE "x")),
        .assignLeftF (.litE 1)]⟩ = true ∧
    isInLeftSideOfAssignmentExpression
      ⟨.litE 1, [.assignRightF (.member (.member .thisE (.identE "x"))
        (.identE "y"))]⟩ = false := by
  refine ⟨?_, by decide, by decide, by decide, by decide⟩
  intro p
  rw [isInLeftSideOfAssignmentExpression, getAncestor,
    getAncestorAux_isSome_iff leftOfAssignPred p.ctx p.focus]
  constructor
  · rintro ⟨a, ha, hpred⟩
    exact ⟨a, ha, (leftOfAssignPred_iff a).mp hpred⟩
  · rintro ⟨a, ha, hq⟩
    exact ⟨a, ha, (leftOfAssignPred_iff a).mpr hq⟩

/-- A key found by `lookup` occurs among the keys. -/
theorem contains_of_lookup {m : List (String × List String)} {k : String}
    {v : List String} (h : m.lookup k = some v) :
    (m.map Prod.fst).contains k = true := by
  induction m with
  | nil => simp [List.lookup] at h
  | cons a t ih =>
    obtain ⟨k2, v2⟩ := a
    rw [List.lookup] at h
    cases hk : (k == k2) with
    | true => simp [List.contains_cons, hk]
    | false =>
      rw [hk] at h
      simp only at h
      have := ih h
      simp only [List.map_cons, List.contains_cons, hk, Bool.false_or]
      exact this

theorem getField_decl_id (props : List (String × String)) (initNode : JSVal) :
    getField (mkObjectPatternDecl props initNode) "id" =
      some (.obj [("type", .str "ObjectPattern"),
                  ("properties", .arr (props.map mkPatternProp))]) := rfl

theorem getField_decl_init (props : List (String × String)) (initNode : JSVal) :
    getField (mkObjectPatternDecl props initNode) "init" = some initNode := rfl

/-- The filter pass over encoded pattern properties keeps exactly those
whose source key occurs in the binding list. -/
theorem copbFilter_enc (bindings : List String) (props : List (String × String)) :
    copbFilter bindings (props.map mkPatternProp) =
      some ((props.filter fun kv => bindings.contains kv.1).map mkPatternProp) := by
  induction props with
  | nil => rfl
  | cons kv t ih =>
    obtain ⟨k, v⟩ := kv
    rw [List.map_cons, copbFilter]
    by_cases hb : k ∈ bindings <;>
      simp [mkPatternProp, mkIdent, getField, List.lookup, ih, List.filter_cons, hb]

/-- The map pass over encoded pattern properties collects the local
(value) names. -/
theorem copbMap_enc (props : List (String × String)) :
    copbMap (props.map mkPatternProp) = some (props.map fun kv => .str kv.2) := by
  induction props with
  | nil => rfl
  | cons kv t ih =>
    obtain ⟨k, v⟩ := kv
    rw [List.map_cons, copbMap]
    simp [mkPatternProp, mkIdent, getField, List.lookup, ih]

/-- C6: `collectObjectPatternBindings` yields the empty sequence when the
declarator's id is not an ObjectPattern or when the init identifier's name
is not a key of the binding map; otherwise it yields, in pattern property
order, the local (possibly aliased) value name of every destructured
property whose key occurs in the binding list for that key. -/
theorem claim_C6 :
    (∀ (node : JSVal) (m : List (String × List String)),
      node ≠ .undefined → node ≠ .null →
      isObjectPattern (getF node "id") = false →
      collectObjectPatternBindings node m = some (.arr [])) ∧
    (∀ (props : List (String × String)) (initName : String)
        (m : List (String × List String)),
      (m.map Prod.fst).contains initName = false →
      collectObjectPatternBindings (mkObjectPatternDecl props (mkIdent initName)) m =
        some (.arr [])) ∧
    (∀ (props : List (String × String)) (initName : String)
        (m : List (String × List String)) (bindings : List String),
      m.lookup initName = some bindings →
      collectObjectPatternBindings (mkObjectPatternDecl props (mkIdent initName)) m =
        some (.arr ((props.filter fun kv => bindings.contains kv.1).map
          fun kv => .str kv.2))) ∧
    collectObjectPatternBindings (mkObjectPatternDecl [("$", "foo")] (mkIdent "Ember"))
      [("Ember", ["$"])] = some (.arr [.str "foo"]) := by
  refine ⟨?_, ?_, ?_, rfl⟩
  · intro node m h1 h2 h3
    rw [collectObjectPatternBindings, getField_of_ne_nullish h1 h2]
    simp [h3]
  · intro props initName m hnc
    rw [collectObjectPatternBindings, getField_decl_id]
    simp only [Option.bind_some, Option.some_bind]
    rw [getField_decl_init]
    simp [isObjectPattern, isNodeType, typeTag, getF, getField, List.lookup,
      mkIdent]
    rw [hnc]
    simp
  · intro props initName m bindings hlk
    rw [collectObjectPatternBindings, getField_decl_id]
    simp only [Option.bind_some, Option.some_bind]
    rw [getField_decl_init]
    simp [isObjectPattern, isNodeType, typeTag, getF, getField, List.lookup,
      mkIdent, copbFilter_enc, copbMap_enc]
    rw [contains_of_lookup hlk]
    simp [hlk]

/-- C6 witness: a declarator whose id is the number 1 (not an
ObjectPattern) yields the empty sequence. -/
theorem claim_C6_witness :
    collectObjectPatternBindings (JSVal.obj [("id", JSVal.num 1)]) [] =
      some (.arr []) :=
  claim_C6.1 (JSVal.obj [("id", JSVal.num 1)]) [] (by simp) (by simp) rfl

/-- The adjacent-pair loop is the first (left-to-right) match of the
inversion predicate over the zipped adjacent pairs. -/
theorem findUnorderedProperty_eq_find (l : List OrderedProp) :
    findUnorderedProperty l =
      ((l.zip l.tail).find? fun pr => decide (pr.2.order < pr.1.order)).map
        Prod.fst := by
  induction l with
  | nil => rfl
  | cons a t ih =>
    cases t with
    | nil => rfl
    | cons b rest =>
      rw [findUnorderedProperty]
      by_cases h : b.order < a.order
      · simp [List.find?, h, gt_iff_lt, List.zip]
      · simp [List.find?, h, gt_iff_lt, List.zip, ih]

/-- The loop returns the none sentinel exactly on a non-decreasing
sequence. -/
theorem findUnorderedProperty_none_iff (l : List OrderedProp) :
    findUnorderedProperty l = none ↔
      l.Chain' fun x y => x.order ≤ y.order := by
  induction l with
  | nil => simp [findUnorderedProperty]
  | cons a t ih =>
    cases t with
    | nil => simp [findUnorderedProperty]
    | cons b rest =>
      rw [findUnorderedProperty, List.chain'_cons]
      by_cases h : a.order > b.order
      · simp [h]
      · have hle : a.order ≤ b.order := by omega
        simp [h, ih, hle]

/-- C7: `findUnorderedProperty` performs a single left-to-right
adjacent-pair scan, returns the first element whose order exceeds its
immediate successor's order, and returns the none sentinel on a
non-decreasing sequence; on orders 1, 3, 2 it returns the order-3
record. -/
theorem claim_C7 :
    (∀ l : List OrderedProp, findUnorderedProperty l =
      ((l.zip l.tail).find? fun pr => decide (pr.2.order < pr.1.order)).map
        Prod.fst) ∧
    (∀ l : List OrderedProp,
      (findUnorderedProperty l = none ↔
        l.Chain' fun x y => x.order ≤ y.order)) ∧
    findUnorderedProperty [⟨1, 0⟩, ⟨3, 1⟩, ⟨2, 2⟩] = some ⟨3, 1⟩ :=
  ⟨findUnorderedProperty_eq_find, findUnorderedProperty_none_iff, by decide⟩

/-- The recursive core of `getPropertyValue` computes the amended
resolution: stop at a falsy intermediate and return it, else keep looking
up. -/
theorem getPropertyValueAux_resolve :
    ∀ (parts : List String) (node : JSVal), node ≠ .undefined → node ≠ .null →
      parts ≠ [] →
      (getPropertyValueAux node parts).map Prod.fst =
        some (resolvePathAmended node parts) := by
  intro parts
  induction parts with
  | nil => intro node h1 h2 h3; exact absurd rfl h3
  | cons p rest ih =>
    intro node h1 h2 _
    cases rest with
    | nil =>
      simp [getPropertyValueAux, resolvePathAmended, getField_of_ne_nullish h1 h2]
    | cons q rest2 =>
      rw [getPropertyValueAux, resolvePathAmended, getField_of_ne_nullish h1 h2 p]
      case cons.cons =>
        by_cases hw : truthy (getF node p) = true
        · simp only [hw, if_true]
          exact ih (getF node p) (truthy_ne_undefined hw) (truthy_ne_null hw) (by simp)
        · simp [hw]
      all_goals simp

/-- The recursive core never throws when the starting node is not
nullish (lookups continue only through truthy, hence non-nullish,
values). -/
theorem getPropertyValueAux_isSome :
    ∀ (parts : List String) (node : JSVal), node ≠ .undefined → node ≠ .null →
      (getPropertyValueAux node parts).isSome = true := by
  intro parts
  induction parts with
  | nil => intro node h1 h2; simp [getPropertyValueAux, getField_of_ne_nullish h1 h2]
  | cons p rest ih =>
    intro node h1 h2
    cases rest with
    | nil => simp [getPropertyValueAux, getField_of_ne_nullish h1 h2]
    | cons q rest2 =>
      rw [getPropertyValueAux, getField_of_ne_nullish h1 h2 p]
      case cons.cons =>
        by_cases hw : truthy (getF node p) = true
        · simp only [hw, if_true]
          exact ih (getF node p) (truthy_ne_undefined hw) (truthy_ne_null hw)
        · simp [hw]
      all_goals simp

/-- After a call, the (mutated) parts array holds a suffix of its original
contents: each recursive step shifts the consumed leading segment. -/
theorem getPropertyValueAux_suffix :
    ∀ (parts : List String) (node : JSVal) (out : JSVal × List String),
      getPropertyValueAux node parts = some out → out.2 <:+ parts := by
  intro parts
  induction parts with
  | nil =>
    intro node out h
    rw [getPropertyValueAux] at h
    cases hg : getField node "undefined" <;> rw [hg] at h <;> simp at h
    simp [← h]
  | cons p rest ih =>
    intro node out h
    cases rest with
    | nil =>
      rw [getPropertyValueAux] at h
      cases hg : getField node p <;> rw [hg] at h <;> simp at h
      simp [← h]
    | cons q rest2 =>
      rw [getPropertyValueAux] at h
      case cons.cons =>
        cases hg : getField node p with
        | none => rw [hg] at h; simp at h
        | some w =>
          rw [hg] at h
          simp only at h
          by_cases hw : truthy w = true
          · rw [if_pos hw] at h
            exact (ih w out h).trans (List.suffix_cons p (q :: rest2))
          · rw [if_neg hw] at h
            simp at h
            simp [← h]
      all_goals simp

/-- C8 counterexample: for the node `{a: 0}` and the dotted path "a.b",
the segment `b` is absent (repeated property lookup, as the claim words
it, yields the undefined sentinel), yet `getPropertyValue` returns `0` —
it stops at the falsy intermediate value `0` and returns it instead of the
sentinel. -/
theorem claim_C8_counterexample :
    getPropertyValueResult (.obj [("a", .num 0)]) (.strPath "a.b") =
      some (.num 0) ∧
    resolvePathClaim (.obj [("a", .num 0)]) ["a", "b"] = .undefined ∧
    JSVal.num 0 ≠ .undefined :=
  ⟨rfl, rfl, by simp⟩

/-- C8 amended: `getPropertyValue` resolves the (string or pre-split) path
segment by segment, but stops as soon as the value reached is falsy and
returns that value; the undefined sentinel arises only when a lookup
performed on a truthy value finds the segment absent, and a one-segment
path is a direct property read. -/
theorem claim_C8 :
    (∀ (node : JSVal) (parts : List String), node ≠ .undefined → node ≠ .null →
      parts ≠ [] →
      getPropertyValueResult node (.arrPath parts) =
        some (resolvePathAmended node parts)) ∧
    (∀ (node : JSVal) (s : String), node ≠ .undefined → node ≠ .null →
      getPropertyValueResult node (.strPath s) =
        some (resolvePathAmended node (jsSplitDot s))) ∧
    (∀ (node : JSVal) (k : String), node ≠ .undefined → node ≠ .null →
      getPropertyValueResult node (.arrPath [k]) = some (getF node k)) := by
  refine ⟨?_, ?_, ?_⟩
  · intro node parts h1 h2 h3
    exact getPropertyValueAux_resolve parts node h1 h2 h3
  · intro node s h1 h2
    exact getPropertyValueAux_resolve (jsSplitDot s) node h1 h2 (jsSplitDot_ne_nil s)
  · intro node k h1 h2
    exact getPropertyValueAux_resolve [k] node h1 h2 (by simp)

/-- C8 witness: reading the one-segment string path "a" on `{a: 7}` is the
direct property read yielding 7. -/
theorem claim_C8_witness :
    getPropertyValueResult (JSVal.obj [("a", JSVal.num 7)]) (.strPath "a") =
      some (JSVal.num 7) := by
  rw [claim_C8.2.1 (JSVal.obj [("a", JSVal.num 7)]) "a" (by simp) (by simp)]
  rfl

/-- C9 counterexample: `collectObjectPatternBindings` on a declarator with
an ObjectPattern id and a null init (as produced by `for (const {a} of xs)`)
reads `node.init.name` and throws (modelled by `none`) instead of
degrading to an empty sequence, and `isEmptyMethod` on a node without a
`value` throws on `node.value.body` — neither is among the claim's
excepted functions. -/
theorem claim_C9_counterexample :
    collectObjectPatternBindings
      (.obj [("type", .str "VariableDeclarator"),
             ("id", .obj [("type", .str "ObjectPattern"),
                          ("properties", .arr [])]),
             ("init", .null)]) [("Ember", ["$"])] = none ∧
    isEmptyMethod (.obj [("type", .str "MethodDefinition")]) = none ∧
    (none : Option JSVal) ≠ some (.arr []) :=
  ⟨rfl, rfl, by simp⟩

/-- C9 amended: the exported functions degrade gracefully on missing
optional fields — a non-ObjectPattern id, a non-call node, a falsy body
list, a missing callee, any path on a non-nullish node — except `getSize`
(excepted by the claim), `collectObjectPatternBindings` when the id is an
ObjectPattern but the init is nullish, and `isEmptyMethod` when `value` is
nullish, which throw. -/
theorem claim_C9 :
    (∀ (node : JSVal) (m : List (String × List String)),
      node ≠ .undefined → node ≠ .null →
      isObjectPattern (getF node "id") = false →
      collectObjectPatternBindings node m = some (.arr [])) ∧
    (∀ node v : JSVal, getField node "value" = some v → v ≠ .undefined →
      v ≠ .null → (isEmptyMethod node).isSome = true) ∧
    (∀ v : JSVal, isCallExpression v = false → (parseArgs v).isSome = true) ∧
    (∀ (node : JSVal) (xs : List JSVal), getF node "arguments" = .arr xs →
      (parseArgs node).isSome = true) ∧
    (∀ (node : JSVal) (parts : List String), node ≠ .undefined → node ≠ .null →
      (getPropertyValueAux node parts).isSome = true) ∧
    (∀ (body : JSVal) (nodeName : String), truthy body = false →
      findNodes body nodeName = some (.arr [])) ∧
    parseCallee (.obj [("type", .str "CallExpression")]) = [] := by
  refine ⟨?_, ?_, ?_, ?_, ?_, ?_, ?_⟩
  · intro node m h1 h2 h3
    rw [collectObjectPatternBindings, getField_of_ne_nullish h1 h2]
    simp [h3]
  · intro node v hv h1 h2
    by_cases hb : truthy (getF v "body") = true
    · by_cases hbb : truthy (getF (getF v "body") "body") = true <;>
        simp [isEmptyMethod, hv, getField_of_ne_nullish h1 h2,
          getField_of_ne_nullish (truthy_ne_undefined hb) (truthy_ne_null hb),
          hb, hbb]
    · simp [isEmptyMethod, hv, getField_of_ne_nullish h1 h2, hb]
  · intro v h
    simp [parseArgs, h]
  · intro node xs harg
    by_cases hc : isCallExpression node = true
    · simp [parseArgs, hc, harg]
    · simp [parseArgs, hc]
  · intro node parts h1 h2
    exact getPropertyValueAux_isSome parts node h1 h2
  · intro body nodeName h
    simp [findNodes, h]
  · simp [parseCallee, parseCalleeAux, isCallExpression, isNewExpression,
      isMemberExpression, isIdentifier, isNodeType, typeTag, getF, getField,
      List.lookup]

/-- C9 witness: any path lookup starting at an (empty) object node
succeeds without throwing. -/
theorem claim_C9_witness :
    (getPropertyValueAux (JSVal.obj []) ["a"]).isSome = true :=
  claim_C9.2.2.2.2.1 (JSVal.obj []) ["a"] (by simp) (by simp)

/-- C10 counterexample: calling `getPropertyValue` on `{a: {b: 1}}` with
the pre-split path array `["a","b"]` returns 1 and leaves the caller's
array object holding `["b"]` (the consumed segment was shifted off), so a
second call with the same node and the same array object returns
`undefined`, not 1 — the function mutates its path argument and is not
idempotent on it. -/
theorem claim_C10_counterexample :
    getPropertyValue (.obj [("a", .obj [("b", .num 1)])]) (.arrPath ["a", "b"]) =
      some (.num 1, ["b"]) ∧
    getPropertyValue (.obj [("a", .obj [("b", .num 1)])]) (.arrPath ["b"]) =
      some (.undefined, ["b"]) ∧
    JSVal.num 1 ≠ .undefined :=
  ⟨rfl, rfl, by simp⟩

/-- C10 amended: the helpers never mutate the tree, and all are pure reads
except `getPropertyValue`, which consumes a pre-split path array in place:
after a call the array object holds a suffix of its original segments
(string paths are split into a fresh internal array, so callers observe no
mutation there). -/
theorem claim_C10 :
    ∀ (node : JSVal) (parts : List String) (out : JSVal × List String),
      getPropertyValueAux node parts = some out → out.2 <:+ parts :=
  fun node parts out h => getPropertyValueAux_suffix parts node out h

/-- C10 witness: the array left behind by the counterexample call is a
suffix of the original `["a","b"]`. -/
theorem claim_C10_witness : (["b"] : List String) <:+ ["a", "b"] :=
  claim_C10 (.obj [("a", .obj [("b", .num 1)])]) ["a", "b"] (.num 1, ["b"]) rfl

end EmberUtils
